import Mathlib

/-!
Shallow embedding of `todo-rs` (src/src/lib.rs), a minimal command-line
todo-list manager.  The program stores entries in a plain-text file
(`todo.txt`), one `"<index> <content>"` per line, and supports two verbs:
`list` (print entries sorted by index) and `add` (append a new entry with
the next available index).

Modelling conventions:
* Rust `i32` values are modelled as `Int`; `str::parse::<i32>` is modelled
  with an explicit range check (overflow is a parse failure).  The `i32`
  counter in `add` is modelled as `Int` without wrap-around: every parsed
  index is at most `2^31 - 1`, so the counter could only overflow on a
  store of at least `2^31 - 1` lines, far outside the behaviour specified.
* The file system is modelled as `Option String`: `none` is an absent
  `todo.txt`, `some s` is a file with contents `s`.  Reading an absent file
  is the I/O error; `add` opens with `create(true)`, so an absent file
  reads as `""`.
* `parse_todos` calls `Todo::new(l).unwrap()`, so a line whose leading
  token does not parse aborts the whole operation (a panic carrying the
  boxed `ParseIntError`).  That abort is modelled as the `ProgError.parse`
  outcome: no entries are produced and the operation fails.
* String manipulation is done on `List Char` (via `String.data`) with
  structural recursion, so that every definition evaluates by `decide`.
-/

deriving instance DecidableEq for Except

namespace TodoRs

/-- Error type of the source (`enum TodoError`). -/
inductive TodoError : Type where
  | invalidCommand
  | notEnoughArguments
deriving DecidableEq

/-- Display impl for `TodoError`: the exact messages printed on failure. -/
def displayTodoError : TodoError → String
  | .invalidCommand => "Invalid command"
  | .notEnoughArguments => "Not enough arguments"

/-- Possible contents of the `Box<dyn Error>` results in the source:
a `TodoError`, an I/O error (`std::io::Error`), or the integer-parse
failure (the boxed `ParseIntError` that the `unwrap` in `parse_todos`
panics on). -/
inductive ProgError : Type where
  | todo (e : TodoError)
  | io
  | parse
deriving DecidableEq

/-- Struct `Config { verb, noun }`. -/
structure Config : Type where
  verb : String
  noun : Option String
deriving DecidableEq

/-- Rust `slice::join` with a separator, on strings
(`[].join(s) = ""`, `["a"].join(s) = "a"`). -/
def joinSep (sep : String) : List String → String
  | [] => ""
  | [w] => w
  | w :: ws => w ++ sep ++ joinSep sep ws

/-- Source `Config::new(args)`: needs at least 2 arguments; the verb is
`args[1]`, the noun is `args[2..].join(" ")` when more remain. -/
def Config.new (args : List String) : Except ProgError Config :=
  if args.length < 2 then
    .error (.todo .notEnoughArguments)
  else
    let verb := args.getD 1 ""
    if args.length > 2 then
      .ok { verb := verb, noun := some (joinSep " " (args.drop 2)) }
    else
      .ok { verb := verb, noun := none }

/-- Struct `Todo { index: i32, content: String }`. -/
structure Todo : Type where
  index : Int
  content : String
deriving DecidableEq

/-- Prepend a character onto the first piece of a split. -/
def consOnto (c : Char) : List (List Char) → List (List Char)
  | [] => [[c]]
  | l :: ls => (c :: l) :: ls

/-- Rust `str::split(sep)` on character lists: split at every occurrence
of the separator; `n` separators yield `n + 1` pieces (empty pieces kept). -/
def splitOnChar (sep : Char) : List Char → List (List Char)
  | [] => [[]]
  | c :: cs =>
    if c = sep then
      [] :: splitOnChar sep cs
    else
      consOnto c (splitOnChar sep cs)

/-- Decimal digit value of a character, if it is one of `'0'..'9'`. -/
def digitVal (c : Char) : Option Nat :=
  if '0' ≤ c ∧ c ≤ '9' then some (c.toNat - '0'.toNat) else none

/-- Accumulate a decimal numeral left to right; fails on a non-digit. -/
def parseDigitsAux (acc : Nat) : List Char → Option Nat
  | [] => some acc
  | c :: cs =>
    match digitVal c with
    | none => none
    | some d => parseDigitsAux (acc * 10 + d) cs

/-- Parse a non-empty all-digit numeral; fails on `[]` or any non-digit. -/
def parseDigits : List Char → Option Nat
  | [] => none
  | c :: cs => parseDigitsAux 0 (c :: cs)

/-- Rust `str::parse::<i32>`: an optional `'+'`/`'-'` sign followed by one
or more decimal digits, value within `i32` range; anything else (empty
string, non-digit, overflow) fails. -/
def parseI32Chars : List Char → Option Int
  | '+' :: rest =>
    (parseDigits rest).bind fun n =>
      if n ≤ 2147483647 then some (n : Int) else none
  | '-' :: rest =>
    (parseDigits rest).bind fun n =>
      if n ≤ 2147483648 then some (-(n : Int)) else none
  | cs =>
    (parseDigits cs).bind fun n =>
      if n ≤ 2147483647 then some (n : Int) else none

/-- String wrapper for `parseI32Chars`. -/
def parseI32 (s : String) : Option Int := parseI32Chars s.data

/-- Join character-list words with a single separator character
(the `words[1..].join(" ")` of the source). -/
def joinChars (sep : Char) : List (List Char) → List Char
  | [] => []
  | [w] => w
  | w :: ws => w ++ sep :: joinChars sep ws

/-- First space-separated token of a line (`words[0]` in the source;
`split` always yields at least one piece). -/
def firstToken (line : String) : String :=
  ⟨(splitOnChar ' ' line.data).headD []⟩

/-- Source `Todo::new(line)`: split the line on `' '` (the `words` of the
source, inlined here); the first token must parse as an `i32` (the
index), the remaining tokens are rejoined with single spaces to form the
content. -/
def Todo.new (line : String) : Except ProgError Todo :=
  match parseI32 ⟨(splitOnChar ' ' line.data).headD []⟩ with
  | none => .error .parse
  | some index =>
    .ok { index := index, content := ⟨joinChars ' ' (splitOnChar ' ' line.data).tail⟩ }

/-- Strip one trailing carriage return, as Rust `str::lines` does to each
line so that `"\r\n"` endings are also recognised. -/
def stripCR : List Char → List Char
  | [] => []
  | [c] => if c = '\x0d' then [] else [c]
  | c :: c' :: cs => c :: stripCR (c' :: cs)

/-- Split on `'\n'`; never returns `[]`. -/
def splitNlChars (cs : List Char) : List (List Char) :=
  splitOnChar '\x0a' cs

/-- Drop the final piece of a newline-split when it is empty: a trailing
newline does not start a new line. -/
def stripLastEmpty (ls : List (List Char)) : List (List Char) :=
  if ls.getLast? = some [] then ls.dropLast else ls

/-- Rust `str::lines`: split on `'\n'`, with no final empty line for a
trailing newline, and a trailing `'\r'` stripped from each line. -/
def rustLines (s : String) : List String :=
  (stripLastEmpty (splitNlChars s.data)).map fun l => ⟨stripCR l⟩

/-- Parse each line in order with `Todo::new`, aborting at the first bad
line (the `.map(|l| Todo::new(l).unwrap())` of the source: the first
failing line panics before any later line is examined). -/
def parseLines : List String → Except ProgError (List Todo)
  | [] => .ok []
  | l :: ls =>
    match Todo.new l with
    | .error e => .error e
    | .ok t =>
      match parseLines ls with
      | .error e => .error e
      | .ok ts => .ok (t :: ts)

/-- Source `parse_todos(lines)`: parse every line of the file text. -/
def parse_todos (contents : String) : Except ProgError (List Todo) :=
  parseLines (rustLines contents)

/-- Source `PartialEq for Todo`: equality solely by index. -/
def todoEq (a b : Todo) : Bool := a.index == b.index

/-- Source `Ord for Todo`: comparison solely by index
(`self.index.cmp(&other.index)`, i.e. less/equal/greater on the `i32`
values). -/
def todoCmp (a b : Todo) : Ordering :=
  if a.index < b.index then .lt
  else if a.index = b.index then .eq
  else .gt

/-- Insert an (earlier) entry into an already-sorted list of later
entries: it goes before the first entry whose index is not smaller, so
earlier input comes before equal-index later input. -/
def insertTodo (t : Todo) : List Todo → List Todo
  | [] => [t]
  | u :: us => if u.index < t.index then u :: insertTodo t us else t :: u :: us

/-- Rust `Vec::sort` is a stable sort by `Ord`, i.e. by `index`; modelled
as stable insertion sort (sortedness, permutation and stability are proved
below, which pin the model to the unique stable sort). -/
def sortTodos : List Todo → List Todo
  | [] => []
  | t :: ts => insertTodo t (sortTodos ts)

/-- The `add` loop computing the next index: a candidate counter walks
the sorted entries, advancing by one while the next entry's index equals
it, and stops at the first mismatch or at the end. -/
def nextIndexAux (index : Int) : List Todo → Int
  | [] => index
  | todo :: todos =>
    if todo.index ≠ index then index else nextIndexAux (index + 1) todos

/-- Next available index: the candidate starts at 1. -/
def nextIndex (todos : List Todo) : Int := nextIndexAux 1 todos

/-- Decimal digits of a natural number (fuel-based so that it evaluates
by `decide`; fuel `n + 1` always suffices). -/
def natDigitsAux : Nat → Nat → List Char
  | 0, _ => []
  | fuel + 1, n =>
    if n < 10 then [Char.ofNat (48 + n)]
    else natDigitsAux fuel (n / 10) ++ [Char.ofNat (48 + n % 10)]

/-- Rust `Display` for an integer: minus sign for negatives, then the
decimal digits. -/
def intToStr (i : Int) : String :=
  if i < 0 then ⟨'-' :: natDigitsAux ((-i).toNat + 1) (-i).toNat⟩
  else ⟨natDigitsAux (i.toNat + 1) i.toNat⟩

/-- The `println!("{}. {}", todo.index, todo.content)` line of `list`. -/
def fmtTodo (t : Todo) : String := intToStr t.index ++ ". " ++ t.content

/-- Source `list()`: read the whole store file (fails with the I/O error
when it is absent), parse, sort, and print one formatted line per entry.
The store file is returned unchanged. -/
def listOp (fs : Option String) : Except ProgError (List String × Option String) :=
  match fs with
  | none => .error .io
  | some contents =>
    match parse_todos contents with
    | .error e => .error e
    | .ok todos => .ok ((sortTodos todos).map fmtTodo, some contents)

/-- Source `add(content)`: open the store read/write/create/append (an
absent file reads as `""`), parse and sort the existing entries, compute
the next index, and append `format!("{} {}", index, content)` plus a
newline at the end of the file. -/
def addOp (content : String) (fs : Option String) : Except ProgError (Option String) :=
  let contents := fs.getD ""
  match parse_todos contents with
  | .error e => .error e
  | .ok todos =>
    let index := nextIndex (sortTodos todos)
    .ok (some (contents ++ (intToStr index ++ " " ++ content ++ "\n")))

/-- Source `run(config)`: dispatch on the verb; `"list"` runs `list()`,
`"add"` requires a noun and runs `add(noun)`, anything else is an invalid
command. -/
def run (config : Config) (fs : Option String) :
    Except ProgError (List String × Option String) :=
  if config.verb = "list" then
    listOp fs
  else if config.verb = "add" then
    match config.noun with
    | some noun =>
      match addOp noun fs with
      | .error e => .error e
      | .ok fs2 => .ok ([], fs2)
    | none => .error (.todo .notEnoughArguments)
  else
    .error (.todo .invalidCommand)

/-! ## Properties of the stable sort -/

/-- Members of `insertTodo t l` are `t` or members of `l`. -/
theorem mem_insertTodo {v t : Todo} {l : List Todo} (h : v ∈ insertTodo t l) :
    v = t ∨ v ∈ l := by
  induction l with
  | nil =>
    simp only [insertTodo, List.mem_singleton] at h
    exact Or.inl h
  | cons u us ih =>
    simp only [insertTodo] at h
    by_cases hc : u.index < t.index
    · rw [if_pos hc] at h
      rcases List.mem_cons.mp h with h | h
      · exact Or.inr (h ▸ List.mem_cons_self u us)
      · rcases ih h with h | h
        · exact Or.inl h
        · exact Or.inr (List.mem_cons_of_mem u h)
    · rw [if_neg hc] at h
      rcases List.mem_cons.mp h with h | h
      · exact Or.inl h
      · exact Or.inr h

/-- Insertion is a permutation. -/
theorem insertTodo_perm (t : Todo) (l : List Todo) :
    List.Perm (insertTodo t l) (t :: l) := by
  induction l with
  | nil => exact List.Perm.refl _
  | cons u us ih =>
    by_cases hc : u.index < t.index
    · have h1 : insertTodo t (u :: us) = u :: insertTodo t us := by
        simp [insertTodo, hc]
      rw [h1]
      exact List.Perm.trans (List.Perm.cons u ih) (List.Perm.swap t u us)
    · simp only [insertTodo, if_neg hc]
      exact List.Perm.refl _

/-- Sorting is a permutation. -/
theorem sortTodos_perm (l : List Todo) : List.Perm (sortTodos l) l := by
  induction l with
  | nil => exact List.Perm.refl _
  | cons t ts ih =>
    exact List.Perm.trans (insertTodo_perm t (sortTodos ts)) (List.Perm.cons t ih)

/-- Insertion preserves sortedness by index. -/
theorem pairwise_insertTodo {t : Todo} {l : List Todo}
    (h : l.Pairwise (fun a b : Todo => a.index ≤ b.index)) :
    (insertTodo t l).Pairwise (fun a b : Todo => a.index ≤ b.index) := by
  induction l with
  | nil => simp [insertTodo]
  | cons u us ih =>
    rcases List.pairwise_cons.mp h with ⟨hu, hus⟩
    by_cases hc : u.index < t.index
    · have h1 := ih hus
      have h2 : ∀ v ∈ insertTodo t us, u.index ≤ v.index := by
        intro v hv
        rcases mem_insertTodo hv with rfl | hv
        · exact le_of_lt hc
        · exact hu v hv
      simp only [insertTodo, if_pos hc]
      exact List.pairwise_cons.mpr ⟨h2, h1⟩
    · have ht : ∀ v ∈ u :: us, t.index ≤ v.index := by
        intro v hv
        rcases List.mem_cons.mp hv with rfl | hv
        · exact le_of_not_lt hc
        · exact le_trans (le_of_not_lt hc) (hu v hv)
      simp only [insertTodo, if_neg hc]
      exact List.pairwise_cons.mpr ⟨ht, h⟩

/-- The sorted entries are in ascending index order. -/
theorem sortTodos_pairwise (l : List Todo) :
    (sortTodos l).Pairwise (fun a b : Todo => a.index ≤ b.index) := by
  induction l with
  | nil => simp [sortTodos]
  | cons t ts ih => exact pairwise_insertTodo ih

/-- Inserting an entry of index `k` keeps it in front of the index-`k`
entries already present (stability, insertion step, equal case). -/
theorem filter_insertTodo_eq {t : Todo} {k : Int} (hk : t.index = k)
    (l : List Todo) :
    (insertTodo t l).filter (fun u => u.index == k) =
      t :: l.filter (fun u => u.index == k) := by
  induction l with
  | nil => simp [insertTodo, hk]
  | cons u us ih =>
    by_cases hc : u.index < t.index
    · have hu : ¬ u.index = k := ne_of_lt (hk ▸ hc)
      simp only [insertTodo, if_pos hc, List.filter_cons]
      simp [hu, ih]
    · simp only [insertTodo, if_neg hc, List.filter_cons]
      simp [hk]

/-- Inserting an entry of another index leaves the index-`k` entries
unchanged (stability, insertion step, differing case). -/
theorem filter_insertTodo_ne {t : Todo} {k : Int} (hk : ¬ t.index = k)
    (l : List Todo) :
    (insertTodo t l).filter (fun u => u.index == k) =
      l.filter (fun u => u.index == k) := by
  induction l with
  | nil => simp [insertTodo, hk]
  | cons u us ih =>
    by_cases hc : u.index < t.index
    · simp only [insertTodo, if_pos hc, List.filter_cons]
      simp [ih]
    · simp only [insertTodo, if_neg hc, List.filter_cons]
      simp [hk]

/-- Stability: sorting preserves the relative order (and identity) of all
entries sharing any given index. -/
theorem sortTodos_filter (l : List Todo) (k : Int) :
    (sortTodos l).filter (fun u => u.index == k) =
      l.filter (fun u => u.index == k) := by
  induction l with
  | nil => rfl
  | cons t ts ih =>
    by_cases hk : t.index = k
    · have h1 := filter_insertTodo_eq hk (sortTodos ts)
      calc (sortTodos (t :: ts)).filter (fun u => u.index == k)
          = t :: (sortTodos ts).filter (fun u => u.index == k) := h1
        _ = t :: ts.filter (fun u => u.index == k) := by rw [ih]
        _ = (t :: ts).filter (fun u => u.index == k) := by
            rw [List.filter_cons]; simp [hk]
    · have h1 := filter_insertTodo_ne hk (sortTodos ts)
      calc (sortTodos (t :: ts)).filter (fun u => u.index == k)
          = (sortTodos ts).filter (fun u => u.index == k) := h1
        _ = ts.filter (fun u => u.index == k) := ih
        _ = (t :: ts).filter (fun u => u.index == k) := by
            rw [List.filter_cons]; simp [hk]

/-- Inserting below an upper bound commutes with a final appended
maximum. -/
theorem insertTodo_append_last {x t : Todo} (h : x.index ≤ t.index)
    (l : List Todo) :
    insertTodo x (l ++ [t]) = insertTodo x l ++ [t] := by
  induction l with
  | nil => simp [insertTodo, not_lt.mpr h]
  | cons u us ih =>
    by_cases hc : u.index < x.index
    · simp [insertTodo, hc, ih]
    · simp [insertTodo, hc]

/-- Sorting a list followed by an entry bounding all its indices sorts
the list and keeps the bound at the end. -/
theorem sortTodos_append_last {t : Todo} {ts : List Todo}
    (h : ∀ u ∈ ts, u.index ≤ t.index) :
    sortTodos (ts ++ [t]) = sortTodos ts ++ [t] := by
  induction ts with
  | nil => rfl
  | cons x rest ih =>
    have hx : x.index ≤ t.index := h x (List.mem_cons_self x rest)
    have hrest : ∀ u ∈ rest, u.index ≤ t.index :=
      fun u hu => h u (List.mem_cons_of_mem x hu)
    calc sortTodos ((x :: rest) ++ [t])
        = insertTodo x (sortTodos (rest ++ [t])) := rfl
      _ = insertTodo x (sortTodos rest ++ [t]) := by rw [ih hrest]
      _ = insertTodo x (sortTodos rest) ++ [t] := insertTodo_append_last hx _
      _ = sortTodos (x :: rest) ++ [t] := rfl

/-! ## Properties of the next-index loop -/

/-- The candidate counter never decreases, so the result is at least the
starting candidate. -/
theorem le_nextIndexAux (ts : List Todo) : ∀ c : Int, c ≤ nextIndexAux c ts := by
  induction ts with
  | nil => intro c; simp [nextIndexAux]
  | cons t ts ih =>
    intro c
    by_cases hc : t.index = c
    · calc c ≤ c + 1 := by omega
        _ ≤ nextIndexAux (c + 1) ts := ih (c + 1)
        _ = nextIndexAux c (t :: ts) := by simp [nextIndexAux, hc]
    · simp [nextIndexAux, hc]

/-- When the sorted index list is exactly `[1, 2]` the next index is 3. -/
theorem nextIndex_of_map_index_one_two {L : List Todo}
    (h : L.map Todo.index = [1, 2]) : nextIndex L = 3 := by
  cases L with
  | nil => simp at h
  | cons a L' =>
    cases L' with
    | nil => simp at h
    | cons b L'' =>
      cases L'' with
      | cons c L3 => simp at h
      | nil =>
        simp only [List.map_cons, List.map_nil] at h
        injection h with h1 h
        injection h with h2 _
        simp [nextIndex, nextIndexAux, h1, h2]

/-! ## Properties of line splitting and parsing -/

/-- Appending concatenates the underlying character lists. -/
theorem string_data_append (s t : String) : (s ++ t).data = s.data ++ t.data := rfl

/-- Unfolding equation for `splitOnChar` on the empty list. -/
theorem splitOnChar_nil (sep : Char) : splitOnChar sep [] = [[]] := rfl

/-- Unfolding equation for `splitOnChar` on a cons. -/
theorem splitOnChar_cons (sep c : Char) (cs : List Char) :
    splitOnChar sep (c :: cs) =
      if c = sep then [] :: splitOnChar sep cs
      else consOnto c (splitOnChar sep cs) := rfl

/-- Splitting always yields at least one piece. -/
theorem splitOnChar_ne_nil (sep : Char) (cs : List Char) :
    splitOnChar sep cs ≠ [] := by
  cases cs with
  | nil => simp [splitOnChar_nil]
  | cons c cs =>
    rw [splitOnChar_cons]
    by_cases hc : c = sep
    · simp [hc]
    · rw [if_neg hc]
      cases h : splitOnChar sep cs <;> simp [consOnto]

/-- Splitting always yields at least one piece (newline case). -/
theorem splitNlChars_ne_nil (cs : List Char) : splitNlChars cs ≠ [] :=
  splitOnChar_ne_nil '\x0a' cs

/-- Splitting cuts at an interior separator. -/
theorem splitOnChar_append_sep (sep : Char) (cs ds : List Char) :
    splitOnChar sep (cs ++ sep :: ds) =
      splitOnChar sep cs ++ splitOnChar sep ds := by
  induction cs with
  | nil => simp [splitOnChar_nil, splitOnChar_cons]
  | cons c cs ih =>
    rw [List.cons_append, splitOnChar_cons, splitOnChar_cons]
    by_cases hc : c = sep
    · rw [if_pos hc, if_pos hc, ih, List.cons_append]
    · rw [if_neg hc, if_neg hc, ih]
      cases h : splitOnChar sep cs with
      | nil => exact absurd h (splitOnChar_ne_nil sep cs)
      | cons l ls => simp [consOnto]

/-- Newline splitting cuts at an interior newline. -/
theorem splitNl_append_nl (cs ds : List Char) :
    splitNlChars (cs ++ '\x0a' :: ds) = splitNlChars cs ++ splitNlChars ds :=
  splitOnChar_append_sep '\x0a' cs ds

/-- Dropping a final empty piece commutes with a nonempty suffix. -/
theorem stripLastEmpty_append (X Y : List (List Char)) (hY : Y ≠ []) :
    stripLastEmpty (X ++ Y) = X ++ stripLastEmpty Y := by
  obtain ⟨Ys, y, hy⟩ : ∃ Ys y, Y = Ys ++ [y] := by
    rcases List.eq_nil_or_concat Y with h | ⟨Ys, y, h⟩
    · exact absurd h hY
    · exact ⟨Ys, y, by simpa [List.concat_eq_append] using h⟩
  subst hy
  unfold stripLastEmpty
  rw [← List.append_assoc, List.getLast?_concat, List.getLast?_concat]
  by_cases h : y = []
  · simp [h, List.dropLast_concat, ← List.append_assoc]
  · simp [h]

/-- A file text ending in a newline splits into the lines of the part
before it. -/
theorem rustLines_of_trailing_nl {s : String} {cs : List Char}
    (h : s.data = cs ++ ['\x0a']) :
    rustLines s = (splitNlChars cs).map (fun l => (⟨stripCR l⟩ : String)) := by
  unfold rustLines
  have h2 : cs ++ ['\x0a'] = cs ++ '\x0a' :: ([] : List Char) := rfl
  rw [h, h2, splitNl_append_nl]
  have h3 : splitNlChars [] = [[]] := rfl
  rw [h3]
  unfold stripLastEmpty
  rw [List.getLast?_concat, if_pos rfl, List.dropLast_concat]

/-- Appending to a file text that ends in a newline appends to its lines. -/
theorem rustLines_append_of_trailing_nl {s : String} {cs : List Char}
    (t : String) (h : s.data = cs ++ ['\x0a']) :
    rustLines (s ++ t) = rustLines s ++ rustLines t := by
  rw [rustLines_of_trailing_nl h]
  unfold rustLines
  have h2 : (s ++ t).data = cs ++ '\x0a' :: t.data := by
    rw [string_data_append, h, List.append_assoc]
    rfl
  rw [h2, splitNl_append_nl,
    stripLastEmpty_append _ _ (splitNlChars_ne_nil t.data), List.map_append]

/-- The only failure of `Todo.new` is the integer-parse failure. -/
theorem todoNew_error {l : String} {e : ProgError}
    (h : Todo.new l = .error e) : e = ProgError.parse := by
  unfold Todo.new at h
  cases hp : parseI32 ⟨(splitOnChar ' ' l.data).headD []⟩ with
  | none =>
    rw [hp] at h
    injection h with h
    exact h.symm
  | some i =>
    rw [hp] at h
    cases h

/-- A line whose first space-separated token does not parse as an `i32`
makes `Todo.new` fail. -/
theorem todoNew_error_of_firstToken {l : String}
    (h : parseI32 (firstToken l) = none) :
    Todo.new l = .error ProgError.parse := by
  unfold firstToken at h
  unfold Todo.new
  rw [h]

/-- Any bad line among the parsed lines aborts `parseLines` with the
parse failure; no entry list is produced. -/
theorem parseLines_error_of_mem {L : List String} {l : String}
    (hmem : l ∈ L) (hbad : Todo.new l = .error ProgError.parse) :
    parseLines L = .error ProgError.parse := by
  induction L with
  | nil => cases hmem
  | cons a as ih =>
    cases ha : Todo.new a with
    | error e =>
      have he := todoNew_error ha
      subst he
      simp [parseLines, ha]
    | ok t =>
      rcases List.mem_cons.mp hmem with rfl | hmem'
      · rw [hbad] at ha; cases ha
      · simp [parseLines, ha, ih hmem']

/-- Parsing a concatenation of line lists concatenates the entries when
both halves parse. -/
theorem parseLines_append {A B : List String} {ts us : List Todo}
    (hA : parseLines A = .ok ts) (hB : parseLines B = .ok us) :
    parseLines (A ++ B) = .ok (ts ++ us) := by
  induction A generalizing ts with
  | nil =>
    simp only [parseLines] at hA
    injection hA with hA
    subst hA
    simpa using hB
  | cons a as ih =>
    simp only [parseLines] at hA
    cases ha : Todo.new a with
    | error e => rw [ha] at hA; cases hA
    | ok t =>
      rw [ha] at hA
      cases hAs : parseLines as with
      | error e => rw [hAs] at hA; cases hA
      | ok ts' =>
        rw [hAs] at hA
        injection hA with hA
        subst hA
        simp only [List.cons_append, parseLines, ha, List.append_eq, ih hAs]

/-! ## Claim theorems -/

/-- C1: the next-index computation in `add` walks the sorted parsed
entries with a candidate counter starting at 1, advancing by 1 each time
the next entry's index equals it, and returns the counter at the first
mismatch or at the end; stores with index sets `{1,2,3}`, `{}`, `{2,3,4}`
and `{1,3,4}` yield next indices 4, 1, 1 and 2 respectively. -/
theorem c1_next_index_computation :
    (∀ c : Int, nextIndexAux c [] = c) ∧
    (∀ (c : Int) (t : Todo) (ts : List Todo),
      nextIndexAux c (t :: ts) =
        if t.index = c then nextIndexAux (c + 1) ts else c) ∧
    (parse_todos "1 a\n2 b\n3 c\n").map (fun ts => nextIndex (sortTodos ts)) =
      .ok 4 ∧
    nextIndex [] = 1 ∧
    (parse_todos "2 a\n3 b\n4 c\n").map (fun ts => nextIndex (sortTodos ts)) =
      .ok 1 ∧
    (parse_todos "1 a\n3 b\n4 c\n").map (fun ts => nextIndex (sortTodos ts)) =
      .ok 2 := by
  refine ⟨fun c => rfl, fun c t ts => ?_, by decide, by decide, by decide,
    by decide⟩
  by_cases h : t.index = c
  · simp [nextIndexAux, h]
  · simp [nextIndexAux, h]

/-- C2: a line whose leading space-separated token does not parse as a
base-10 `i32` (non-numeric, empty, or overflowing) makes the whole store
parse fail with the parse error: the bad line is not skipped and no
entries are returned; in particular the single line "abc hello" fails. -/
theorem c2_parse_failure_aborts :
    (∀ s l : String, l ∈ rustLines s → parseI32 (firstToken l) = none →
      parse_todos s = .error ProgError.parse) ∧
    parse_todos "abc hello" = .error ProgError.parse ∧
    parseI32 "abc" = none ∧
    parseI32 "" = none ∧
    parseI32 "2147483648" = none ∧
    parseI32 "-2147483649" = none := by
  refine ⟨?_, by decide, by decide, by decide, by decide, by decide⟩
  intro s l hmem hbad
  exact parseLines_error_of_mem hmem (todoNew_error_of_firstToken hbad)

/-- C2 witness: the general abort theorem applied to the one-line store
"abc hello". -/
theorem c2_parse_failure_aborts_witness :
    parse_todos "abc hello" = .error ProgError.parse :=
  c2_parse_failure_aborts.1 "abc hello" "abc hello" (by decide) (by decide)

/-- C3: whole-file parsing splits the text on the newline character,
parses every line in file order, and each line becomes an entry whose
index is the first token's integer value and whose content is the
remaining tokens rejoined with single spaces (empty if none remain); the
documented three-line file yields its three entries in file order. -/
theorem c3_whole_file_parsing :
    (∀ s : String, parse_todos s = parseLines (rustLines s)) ∧
    parse_todos "2 Something else\n1 Something\n4 Another thing\n" =
      .ok [⟨2, "Something else"⟩, ⟨1, "Something"⟩, ⟨4, "Another thing"⟩] ∧
    Todo.new "2 Something else" = .ok ⟨2, "Something else"⟩ ∧
    Todo.new "5" = .ok ⟨5, ""⟩ :=
  ⟨fun _ => rfl, by decide, by decide, by decide⟩

/-- C4: entry equality holds exactly when the indices are equal
(content ignored), the comparison is `lt` exactly when the first index is
smaller, and sorting any entry list yields an index-ascending permutation
in which the entries of each fixed index keep their input order
(stability). -/
theorem c4_equality_and_ordering_by_index :
    (∀ a b : Todo, todoEq a b = true ↔ a.index = b.index) ∧
    (∀ a b : Todo, todoCmp a b = Ordering.lt ↔ a.index < b.index) ∧
    (∀ l : List Todo,
      (sortTodos l).Pairwise (fun a b : Todo => a.index ≤ b.index)) ∧
    (∀ l : List Todo, List.Perm (sortTodos l) l) ∧
    (∀ (l : List Todo) (k : Int),
      (sortTodos l).filter (fun t => t.index == k) =
        l.filter (fun t => t.index == k)) := by
  refine ⟨?_, ?_, sortTodos_pairwise, sortTodos_perm, sortTodos_filter⟩
  · intro a b
    simp [todoEq]
  · intro a b
    unfold todoCmp
    by_cases h1 : a.index < b.index
    · simp [h1]
    · by_cases h2 : a.index = b.index <;> simp [h1, h2]

/-- C4 witness: the equality, ordering and stability statements evaluated
at concrete entries. -/
theorem c4_equality_and_ordering_by_index_witness :
    todoEq ⟨1, "a"⟩ ⟨1, "b"⟩ = true ∧
    todoCmp ⟨1, "a"⟩ ⟨2, "b"⟩ = Ordering.lt ∧
    (sortTodos [⟨2, "x"⟩, ⟨1, "y"⟩, ⟨1, "z"⟩]).filter
      (fun t => t.index == 1) = [⟨1, "y"⟩, ⟨1, "z"⟩] :=
  ⟨(c4_equality_and_ordering_by_index.1 ⟨1, "a"⟩ ⟨1, "b"⟩).mpr rfl,
   (c4_equality_and_ordering_by_index.2.1 ⟨1, "a"⟩ ⟨2, "b"⟩).mpr (by decide),
   (c4_equality_and_ordering_by_index.2.2.2.2
      [⟨2, "x"⟩, ⟨1, "y"⟩, ⟨1, "z"⟩] 1).trans (by decide)⟩

/-- C5: config resolution fails with `NotEnoughArguments` on fewer than
two arguments; otherwise the verb is the second element and the noun is
the remaining elements joined with single spaces, absent if none remain;
the two documented argument lists resolve as stated. -/
theorem c5_config_resolution :
    Config.new [] = .error (.todo .notEnoughArguments) ∧
    (∀ a : String, Config.new [a] = .error (.todo .notEnoughArguments)) ∧
    (∀ (a v : String) (rest : List String),
      Config.new (a :: v :: rest) =
        .ok ⟨v, if rest = [] then none else some (joinSep " " rest)⟩) ∧
    Config.new ["prog", "add", "Buy", "milk"] = .ok ⟨"add", some "Buy milk"⟩ ∧
    Config.new ["prog", "add"] = .ok ⟨"add", none⟩ := by
  refine ⟨by decide, fun a => ?_, fun a v rest => ?_, by decide, by decide⟩
  · simp [Config.new]
  · cases rest with
    | nil => simp [Config.new]
    | cons r rs =>
      have h1 : ¬ (a :: v :: r :: rs).length < 2 := by
        simp only [List.length_cons]
        omega
      have h2 : (a :: v :: r :: rs).length > 2 := by
        simp only [List.length_cons]
        omega
      simp [Config.new, h1, h2]

/-- C6: dispatch sends verb "list" to `list()`, verb "add" with a noun to
`add(noun)`, verb "add" without a noun to `NotEnoughArguments`, and every
other verb to `InvalidCommand`; the rendered messages are exactly
"Invalid command" and "Not enough arguments". -/
theorem c6_dispatch :
    (∀ (noun : Option String) (fs : Option String),
      run ⟨"list", noun⟩ fs = listOp fs) ∧
    (∀ (n : String) (fs fs2 : Option String), addOp n fs = .ok fs2 →
      run ⟨"add", some n⟩ fs = .ok ([], fs2)) ∧
    (∀ fs : Option String,
      run ⟨"add", none⟩ fs = .error (.todo .notEnoughArguments)) ∧
    (∀ (v : String) (noun : Option String) (fs : Option String),
      v ≠ "list" → v ≠ "add" →
      run ⟨v, noun⟩ fs = .error (.todo .invalidCommand)) ∧
    displayTodoError .invalidCommand = "Invalid command" ∧
    displayTodoError .notEnoughArguments = "Not enough arguments" := by
  refine ⟨fun noun fs => ?_, fun n fs fs2 h => ?_, fun fs => ?_,
    fun v noun fs h1 h2 => ?_, rfl, rfl⟩
  · simp [run]
  · simp [run, h]
  · simp [run]
  · simp [run, h1, h2]

/-- C6 witness: dispatch evaluated on verb "add" with a noun against an
absent store, and on the unknown verb "delete". -/
theorem c6_dispatch_witness :
    run ⟨"add", some "Buy milk"⟩ none = .ok ([], some "1 Buy milk\n") ∧
    run ⟨"delete", none⟩ none = .error (.todo .invalidCommand) :=
  ⟨c6_dispatch.2.1 "Buy milk" none (some "1 Buy milk\n") (by decide),
   c6_dispatch.2.2.2.1 "delete" none none (by decide) (by decide)⟩

/-- C7 counterexample: the store file "1 A\n2 B" has entries with indices
{1,2} but no trailing line terminator; `add` still appends exactly
"3 Buy milk" plus a newline, but the appended text merges with the last
existing line, so the lines change and a subsequent `list` prints
"2. B3 Buy milk" and never "3. Buy milk" — refuting the claim as stated. -/
theorem c7_roundtrip_counterexample :
    parse_todos "1 A\n2 B" = .ok [⟨1, "A"⟩, ⟨2, "B"⟩] ∧
    addOp "Buy milk" (some "1 A\n2 B") = .ok (some "1 A\n2 B3 Buy milk\n") ∧
    rustLines "1 A\n2 B3 Buy milk\n" ≠ rustLines "1 A\n2 B" ++ ["3 Buy milk"] ∧
    listOp (some "1 A\n2 B3 Buy milk\n") =
      .ok (["1. A", "2. B3 Buy milk"], some "1 A\n2 B3 Buy milk\n") ∧
    "3. Buy milk" ∉ ["1. A", "2. B3 Buy milk"] := by
  refine ⟨by decide, by decide, by decide, by decide, by decide⟩

/-- C7 (amended): provided the store file text ends with a line
terminator, appending "Buy milk" to a store whose entries have sorted
indices [1, 2] appends exactly the line "3 Buy milk" followed by a line
terminator, leaves the existing lines unchanged, and a subsequent `list`
prints "3. Buy milk" after the prior entries sorted by index. -/
theorem c7_roundtrip_amended (s : String) (cs : List Char) (ts : List Todo)
    (hnl : s.data = cs ++ ['\x0a'])
    (hp : parse_todos s = .ok ts)
    (hidx : (sortTodos ts).map Todo.index = [1, 2]) :
    addOp "Buy milk" (some s) = .ok (some (s ++ "3 Buy milk\n")) ∧
    rustLines (s ++ "3 Buy milk\n") = rustLines s ++ ["3 Buy milk"] ∧
    listOp (some (s ++ "3 Buy milk\n")) =
      .ok ((sortTodos ts).map fmtTodo ++ ["3. Buy milk"],
        some (s ++ "3 Buy milk\n")) := by
  have hnext : nextIndex (sortTodos ts) = 3 := nextIndex_of_map_index_one_two hidx
  have hadd : addOp "Buy milk" (some s) = .ok (some (s ++ "3 Buy milk\n")) := by
    simp only [addOp, Option.getD, hp, hnext]
    rw [(by decide : (intToStr 3 ++ " " ++ "Buy milk" ++ "\n" : String) =
      "3 Buy milk\n")]
  have hlines : rustLines (s ++ "3 Buy milk\n") = rustLines s ++ ["3 Buy milk"] := by
    rw [rustLines_append_of_trailing_nl _ hnl]
    rw [(by decide : rustLines "3 Buy milk\n" = ["3 Buy milk"])]
  have hparse2 : parse_todos (s ++ "3 Buy milk\n") =
      .ok (ts ++ [⟨3, "Buy milk"⟩]) := by
    unfold parse_todos
    rw [hlines]
    exact parseLines_append hp (by decide)
  have hmem3 : ∀ u ∈ ts, u.index ≤ (3 : Int) := by
    intro u hu
    have hu2 : u ∈ sortTodos ts := ((sortTodos_perm ts).mem_iff).mpr hu
    have hu3 : u.index ∈ (sortTodos ts).map Todo.index :=
      List.mem_map_of_mem Todo.index hu2
    rw [hidx] at hu3
    simp only [List.mem_cons, List.mem_singleton] at hu3
    rcases hu3 with h | h | h
    · omega
    · omega
    · cases h
  have hsort2 : sortTodos (ts ++ [⟨3, "Buy milk"⟩]) =
      sortTodos ts ++ [⟨3, "Buy milk"⟩] :=
    sortTodos_append_last hmem3
  have hlist : listOp (some (s ++ "3 Buy milk\n")) =
      .ok ((sortTodos ts).map fmtTodo ++ ["3. Buy milk"],
        some (s ++ "3 Buy milk\n")) := by
    simp only [listOp, hparse2, hsort2, List.map_append]
    rw [(by decide : List.map fmtTodo [(⟨3, "Buy milk"⟩ : Todo)] =
      ["3. Buy milk"])]
  exact ⟨hadd, hlines, hlist⟩

/-- C7 witness: the amended round trip evaluated on the concrete store
"1 A\n2 B\n". -/
theorem c7_roundtrip_amended_witness :
    addOp "Buy milk" (some "1 A\n2 B\n") = .ok (some "1 A\n2 B\n3 Buy milk\n") ∧
    rustLines "1 A\n2 B\n3 Buy milk\n" = ["1 A", "2 B", "3 Buy milk"] ∧
    listOp (some "1 A\n2 B\n3 Buy milk\n") =
      .ok (["1. A", "2. B", "3. Buy milk"], some "1 A\n2 B\n3 Buy milk\n") := by
  have h := c7_roundtrip_amended "1 A\n2 B\n" ("1 A\n2 B").data
    [⟨1, "A"⟩, ⟨2, "B"⟩] (by decide) (by decide) (by decide)
  rw [(by decide : ("1 A\n2 B\n" ++ "3 Buy milk\n" : String) =
    "1 A\n2 B\n3 Buy milk\n")] at h
  exact ⟨h.1, h.2.1.trans (by decide), h.2.2.trans (by decide)⟩

/-- C8: `list` fails with the I/O error when the store file is absent
(rather than printing an empty list); on success it prints each parsed
entry as `"<index>. <content>"`, one per line, in sorted order, and the
store file is unchanged. -/
theorem c8_list_reads_and_prints :
    listOp none = .error ProgError.io ∧
    (∀ (s : String) (ts : List Todo), parse_todos s = .ok ts →
      listOp (some s) = .ok ((sortTodos ts).map fmtTodo, some s)) := by
  refine ⟨rfl, fun s ts h => ?_⟩
  simp [listOp, h]

/-- C8 witness: `list` evaluated on the concrete store "2 b\n1 a\n". -/
theorem c8_list_reads_and_prints_witness :
    listOp (some "2 b\n1 a\n") = .ok (["1. a", "2. b"], some "2 b\n1 a\n") := by
  have h := c8_list_reads_and_prints.2 "2 b\n1 a\n" [⟨2, "b"⟩, ⟨1, "a"⟩]
    (by decide)
  exact h.trans (by decide)

/-- C9: the well-formed store "1 a\n1 b\n2 c\n" contains a duplicate
index; its sorted indices are [1,1,2], the next-index computation returns
2, which is already present, and `add` appends an entry whose index 2
duplicates an existing entry's index. -/
theorem c9_duplicate_index_append :
    parse_todos "1 a\n1 b\n2 c\n" =
      .ok [⟨1, "a"⟩, ⟨1, "b"⟩, ⟨2, "c"⟩] ∧
    (sortTodos [⟨1, "a"⟩, ⟨1, "b"⟩, ⟨2, "c"⟩]).map Todo.index = [1, 1, 2] ∧
    nextIndex (sortTodos [⟨1, "a"⟩, ⟨1, "b"⟩, ⟨2, "c"⟩]) = 2 ∧
    (2 : Int) ∈ ([⟨1, "a"⟩, ⟨1, "b"⟩, ⟨2, "c"⟩] : List Todo).map Todo.index ∧
    addOp "d" (some "1 a\n1 b\n2 c\n") = .ok (some "1 a\n1 b\n2 c\n2 d\n") := by
  refine ⟨by decide, by decide, by decide, by decide, by decide⟩

/-- C10: line parsing accepts zero and negative indices without any
positivity check, yet for every store whose lines all parse the index
`add` assigns to the new entry is at least 1 (the candidate starts at 1
and only ever increases). -/
theorem c10_assigned_index_at_least_one :
    Todo.new "0 a" = .ok ⟨0, "a"⟩ ∧
    Todo.new "-5 b" = .ok ⟨-5, "b"⟩ ∧
    (∀ (s content : String) (ts : List Todo), parse_todos s = .ok ts →
      1 ≤ nextIndex (sortTodos ts) ∧
      addOp content (some s) =
        .ok (some (s ++ (intToStr (nextIndex (sortTodos ts)) ++ " " ++
          content ++ "\n")))) := by
  refine ⟨by decide, by decide, fun s content ts h =>
    ⟨le_nextIndexAux (sortTodos ts) 1, ?_⟩⟩
  simp [addOp, h]

/-- C10 witness: a store with a zero and a negative index still gets the
new index 1. -/
theorem c10_assigned_index_at_least_one_witness :
    1 ≤ nextIndex (sortTodos [⟨0, "a"⟩, ⟨-5, "b"⟩]) ∧
    addOp "x" (some "0 a\n-5 b\n") = .ok (some "0 a\n-5 b\n1 x\n") := by
  have h := c10_assigned_index_at_least_one.2.2 "0 a\n-5 b\n" "x"
    [⟨0, "a"⟩, ⟨-5, "b"⟩] (by decide)
  exact ⟨h.1, h.2.trans (by decide)⟩

end TodoRs
